import Mathlib

/-!
Shallow embedding of the pExplore constraint-scoring core.

Source files embedded:
* `include/robustness_controller.hpp` : `RobustnessControllerInterface`,
  `IdentityRobustnessController`, `TimeProgressLinearRobustnessController`.
* `include/constraint.hpp` : `Constraint`, `ConstraintBuilder`, `ConstraintState`.
* `include/constraining_specification.hpp` : `ConstrainingSpecification`
  (`evaluate`, `update_from`, `active_constraints`), `NoActiveConstraintsException`.
* `src/score.cpp` / `include/score.hpp` : `Score` (`ConstraintScore`) comparison
  operators; `PointScore` comparison.
* `src/exploration.cpp` : `ShiftAndKeepBestHalfExploration::next_points_from`.
* `src/task_manager.cpp` : `TaskManager::optimal_point`.

Modelling conventions: C++ `double` is modelled as `ℚ`; `Set<size_t>` (an ordered
set of indices) as `Finset ℕ`, compared through its ascending-sorted element list
exactly as `std::set::operator<` (lexicographical compare); `size_t` arithmetic
on the active-constraint counter keeps the explicit wrap-around modulo `2 ^ 64`.
The task input/output types are opaque type parameters, and a constraint's
robustness function is an arbitrary function to `ℚ`.  The C++
`TimeProgressLinearRobustnessController` constructor leaves `_previous_time`
uninitialised: its value is taken as an arbitrary parameter `tp0` wherever a
fresh controller is created.
-/

namespace PExplore

/-- `ConstraintSuccessAction` from `constraint.hpp`. -/
inductive ConstraintSuccessAction where
  | NONE
  | DEACTIVATE
deriving DecidableEq, Repr

/-- `ConstraintFailureKind` from `constraint.hpp`. -/
inductive ConstraintFailureKind where
  | NONE
  | SOFT
  | HARD
deriving DecidableEq, Repr

/-- `ConstraintObjectiveImpact` from `constraint.hpp`. -/
inductive ConstraintObjectiveImpact where
  | NONE
  | SIGNED
  | UNSIGNED
deriving DecidableEq, Repr

/-- The closed set of robustness-controller variants from
`robustness_controller.hpp`: `IdentityRobustnessController` and
`TimeProgressLinearRobustnessController` (fields `_t_func`, `_final_time`,
`_previous_time`, `_accumulated_value`). -/
inductive RobustnessController (Inp Out : Type) where
  | identity
  | timeProgressLinear (t_func : Inp → Out → ℚ) (final_time : ℚ)
      (previous_time : ℚ) (accumulated_value : ℚ)

namespace RobustnessController

/-- `TimeProgressLinearRobustnessController(func, final_time)`: the constructor
sets `_accumulated_value = 0.0` and leaves `_previous_time` uninitialised, here
the arbitrary `tp0`. -/
def mkTimeProgressLinear {Inp Out : Type} (t_func : Inp → Out → ℚ)
    (final_time : ℚ) (tp0 : ℚ) : RobustnessController Inp Out :=
  .timeProgressLinear t_func final_time tp0 0

/-- `RobustnessControllerInterface::apply` for each variant, returning the
controlled robustness together with the controller's post-call state
(the C++ method mutates `this`). -/
def apply {Inp Out : Type} :
    RobustnessController Inp Out → ℚ → Inp → Out →
      ℚ × RobustnessController Inp Out
  | .identity, robustness, _, _ => (robustness, .identity)
  | .timeProgressLinear f tf tp acc, robustness, input, output =>
      let current_time := f input output
      let result := robustness - (current_time - tp) * acc
      (result, .timeProgressLinear f tf current_time
        (acc + result / (tf - current_time)))

/-- `clone` of each variant; `TimeProgressLinearRobustnessController::clone`
re-runs the two-argument constructor, so the clone's accumulator is `0` and its
previous time is the uninitialised `tp0`. -/
def clone {Inp Out : Type} (tp0 : ℚ) :
    RobustnessController Inp Out → RobustnessController Inp Out
  | .identity => .identity
  | .timeProgressLinear f tf _ _ => .timeProgressLinear f tf tp0 0

/-- Observer for the `_accumulated_value` field (`0` for the stateless
identity controller). -/
def accumulated {Inp Out : Type} : RobustnessController Inp Out → ℚ
  | .identity => 0
  | .timeProgressLinear _ _ _ acc => acc

/-- Feed a list of `(robustness, input, output)` triples through a controller,
collecting the returned values and the final controller state. -/
def applyList {Inp Out : Type} :
    RobustnessController Inp Out → List (ℚ × Inp × Out) →
      List ℚ × RobustnessController Inp Out
  | c, [] => ([], c)
  | c, (r, i, o) :: rest =>
      let step := c.apply r i o
      let tail := applyList step.2 rest
      (step.1 :: tail.1, tail.2)

end RobustnessController

/-- `Constraint<R>` from `constraint.hpp` (the `_name` field is irrelevant to
every claim and is omitted; `_func` is the raw robustness function). -/
structure Constraint (Inp Out : Type) where
  group_id : ℕ
  success_action : ConstraintSuccessAction
  failure_kind : ConstraintFailureKind
  objective_impact : ConstraintObjectiveImpact
  func : Inp → Out → ℚ
  controller : RobustnessController Inp Out

/-- `ConstraintBuilder::build`, which invokes the `Constraint` constructor;
the constructor stores `controller.clone()` (`constraint.hpp` line 115). -/
def buildConstraint {Inp Out : Type} (group_id : ℕ)
    (success_action : ConstraintSuccessAction)
    (failure_kind : ConstraintFailureKind)
    (objective_impact : ConstraintObjectiveImpact)
    (func : Inp → Out → ℚ) (controller : RobustnessController Inp Out)
    (tp0 : ℚ) : Constraint Inp Out :=
  ⟨group_id, success_action, failure_kind, objective_impact, func,
    controller.clone tp0⟩

/-- `ConstraintState<R>` from `constraint.hpp`: a constraint plus the three
mutable flags, initialised to `{active = true, success = false,
failure = false}` by `mkConstraintState`. -/
structure ConstraintState (Inp Out : Type) where
  constraint : Constraint Inp Out
  active : Bool
  success : Bool
  failure : Bool

/-- The `ConstraintState(Constraint const&)` constructor. -/
def mkConstraintState {Inp Out : Type} (c : Constraint Inp Out) :
    ConstraintState Inp Out :=
  ⟨c, true, false, false⟩

/-- `Score` (named `ConstraintScore` in `score.cpp`): three index sets and the
objective value. -/
structure Score where
  successes : Finset ℕ
  hard_failures : Finset ℕ
  soft_failures : Finset ℕ
  objective : ℚ
deriving DecidableEq

/-- `std::lexicographical_compare` on element lists, which is how
`std::set<size_t>::operator<` compares two index sets. -/
def lexLt : List ℕ → List ℕ → Bool
  | _, [] => false
  | [], _ :: _ => true
  | a :: as, b :: bs =>
      if a < b then true else if b < a then false else lexLt as bs

/-- `operator<` on `Set<size_t>`: lexicographic compare of the ascending
element lists. -/
def setLt (x y : Finset ℕ) : Bool :=
  lexLt (x.sort (· ≤ ·)) (y.sort (· ≤ ·))

namespace Score

/-- `ConstraintScore::operator<` from `score.cpp` lines 56-66: hard failures,
then soft failures, then objective; successes do not participate. -/
def lt (a b : Score) : Bool :=
  if setLt a.hard_failures b.hard_failures then true
  else if setLt b.hard_failures a.hard_failures then false
  else if setLt a.soft_failures b.soft_failures then true
  else if setLt b.soft_failures a.soft_failures then false
  else decide (a.objective < b.objective)

/-- `ConstraintScore::operator==` from `score.cpp` lines 68-70: all four
fields, successes included. -/
def eq (a b : Score) : Bool :=
  decide (a.successes = b.successes) && decide (a.hard_failures = b.hard_failures)
    && decide (a.soft_failures = b.soft_failures) && decide (a.objective = b.objective)

end Score

/-- `PointScore` (`PointConstraintScore` in `score.cpp`); the search point is
modelled by its identifier in the totally ordered external point type. -/
structure PointScore where
  point : ℕ
  score : Score

/-- `PointConstraintScore::operator<` from `score.cpp` lines 87-90: equal
scores fall back to the point order, otherwise the score order decides. -/
def PointScore.lt (a b : PointScore) : Bool :=
  if Score.eq a.score b.score then decide (a.point < b.point)
  else Score.lt a.score b.score

/-- `ConstrainingSpecification<R>`: the ordered constraint-state list plus the
`size_t` counter `_num_active_constraints`. -/
structure ConstrainingSpecification (Inp Out : Type) where
  constraint_states : List (ConstraintState Inp Out)
  num_active_constraints : ℕ

/-- The `ConstrainingSpecification(List<Constraint>)` constructor: every state
starts fresh and the counter starts at `constraints.size()`. -/
def mkConstrainingSpecification {Inp Out : Type}
    (constraints : List (Constraint Inp Out)) :
    ConstrainingSpecification Inp Out :=
  ⟨constraints.map mkConstraintState, constraints.length⟩

/-- `--_num_active_constraints` on the `size_t` counter, with the machine
wrap-around at zero made explicit. -/
def decrementSizeT (n : ℕ) : ℕ :=
  (n + (2 ^ 64 - 1)) % 2 ^ 64

/-- The error raised out of `ConstrainingSpecification::evaluate` and the
exception type of `constraining_specification.hpp` lines 161-164.
`UTILITY_PRECONDITION` throws a plain runtime error carrying no data;
`NoActiveConstraintsException` carries the constraint-state list. -/
inductive SpecificationError (Inp Out : Type) where
  | preconditionViolation
  | noActiveConstraints (constraint_states : List (ConstraintState Inp Out))

/-- The loop body of `ConstrainingSpecification::evaluate`
(`constraining_specification.hpp` lines 71-103), processing the states from
index `i` on: a state with neither success nor failure set has its robustness
computed through the controller (whose post-call state is retained), its
objective contribution added, and its index inserted into the matching set.
Returns `(successes, hard_failures, soft_failures, objective, updated states)`. -/
def evalLoop {Inp Out : Type} (input : Inp) (output : Out) :
    List (ConstraintState Inp Out) → ℕ →
      Finset ℕ × Finset ℕ × Finset ℕ × ℚ × List (ConstraintState Inp Out)
  | [], _ => (∅, ∅, ∅, 0, [])
  | s :: rest, i =>
      let tail := evalLoop input output rest (i + 1)
      if !s.success && !s.failure then
        let step := s.constraint.controller.apply
          (s.constraint.func input output) input output
        let robustness := step.1
        let contribution : ℚ :=
          match s.constraint.objective_impact with
          | .UNSIGNED => |robustness|
          | .SIGNED => robustness
          | .NONE => 0
        let successes :=
          if robustness < 0 then tail.1 else insert i tail.1
        let hard_failures :=
          if robustness < 0 ∧ s.constraint.failure_kind = .HARD then
            insert i tail.2.1
          else tail.2.1
        let soft_failures :=
          if robustness < 0 ∧ s.constraint.failure_kind = .SOFT then
            insert i tail.2.2.1
          else tail.2.2.1
        (successes, hard_failures, soft_failures,
          contribution + tail.2.2.2.1,
          { s with constraint :=
              { s.constraint with controller := step.2 } } :: tail.2.2.2.2)
      else
        (tail.1, tail.2.1, tail.2.2.1, tail.2.2.2.1, s :: tail.2.2.2.2)

/-- `ConstrainingSpecification::evaluate` (lines 65-105): fails on the
precondition `_num_active_constraints > 0`, otherwise returns the `Score`
together with the specification whose controllers have advanced (in C++ the
controllers are mutated in place through their shared pointers even though the
method is `const`). -/
def evaluateFull {Inp Out : Type} (spec : ConstrainingSpecification Inp Out)
    (input : Inp) (output : Out) :
    Except (SpecificationError Inp Out) (Score × ConstrainingSpecification Inp Out) :=
  if spec.num_active_constraints > 0 then
    let r := evalLoop input output spec.constraint_states 0
    .ok (⟨r.1, r.2.1, r.2.2.1, r.2.2.2.1⟩,
      ⟨r.2.2.2.2, spec.num_active_constraints⟩)
  else .error .preconditionViolation

/-- The `Score` returned by `ConstrainingSpecification::evaluate`. -/
def evaluateScore {Inp Out : Type} (spec : ConstrainingSpecification Inp Out)
    (input : Inp) (output : Out) :
    Except (SpecificationError Inp Out) Score :=
  (evaluateFull spec input output).map Prod.fst

/-- The specification state left behind by a call to
`ConstrainingSpecification::evaluate` (identical flags, advanced controllers);
on a precondition failure nothing is mutated. -/
def evaluateState {Inp Out : Type} (spec : ConstrainingSpecification Inp Out)
    (input : Inp) (output : Out) : ConstrainingSpecification Inp Out :=
  match evaluateFull spec input output with
  | .ok r => r.2
  | .error _ => spec

/-- The loop of `ConstrainingSpecification::update_from`
(`constraining_specification.hpp` lines 114-133) over the states from index
`i`, threading `group_ids_to_deactivate` and the active counter: a success
sets the success flag and, under `ConstraintSuccessAction::DEACTIVATE`, flags
the group; a hard failure sets the failure flag and flags the group; a state
whose group is flagged by then is deactivated and the counter decremented
(with no check that the state was still active).
Returns `(updated states, final flagged groups, final counter)`. -/
def updateLoop {Inp Out : Type} (successes hard_failures : Finset ℕ) :
    List (ConstraintState Inp Out) → ℕ → Finset ℕ → ℕ →
      List (ConstraintState Inp Out) × Finset ℕ × ℕ
  | [], _, groups, num => ([], groups, num)
  | s :: rest, i, groups, num =>
      let s1 := if i ∈ successes then { s with success := true } else s
      let g1 :=
        if i ∈ successes ∧ s1.constraint.success_action = .DEACTIVATE then
          insert s1.constraint.group_id groups
        else groups
      let s2 := if i ∈ hard_failures then { s1 with failure := true } else s1
      let g2 :=
        if i ∈ hard_failures then insert s2.constraint.group_id g1 else g1
      let deactivated := s2.constraint.group_id ∈ g2
      let s3 := if deactivated then { s2 with active := false } else s2
      let num1 := if deactivated then decrementSizeT num else num
      let tail := updateLoop successes hard_failures rest (i + 1) g2 num1
      (s3 :: tail.1, tail.2.1, tail.2.2)

/-- `ConstrainingSpecification::update_from` (lines 110-134): first the
internal `evaluate` call (which advances the controllers and, on an inactive
specification, throws before any mutation — modelled by returning the state
unchanged), then the single flag-and-deactivate loop. -/
def updateFrom {Inp Out : Type} (spec : ConstrainingSpecification Inp Out)
    (input : Inp) (output : Out) : ConstrainingSpecification Inp Out :=
  match evaluateFull spec input output with
  | .error _ => spec
  | .ok r =>
      let looped := updateLoop r.1.successes r.1.hard_failures
        r.2.constraint_states 0 ∅ r.2.num_active_constraints
      ⟨looped.1, looped.2.2⟩

/-- The final `group_ids_to_deactivate` set of an `update_from` call (empty
when the internal `evaluate` throws). -/
def updateFlaggedGroups {Inp Out : Type}
    (spec : ConstrainingSpecification Inp Out) (input : Inp) (output : Out) :
    Finset ℕ :=
  match evaluateFull spec input output with
  | .error _ => ∅
  | .ok r =>
      (updateLoop r.1.successes r.1.hard_failures
        r.2.constraint_states 0 ∅ r.2.num_active_constraints).2.1

/-- The `group_ids_to_deactivate` set as it stands right after the loop of
`update_from` has processed the state at position `k` of the list (counting
from the state at index `i`): this is the set against which that very state's
deactivation is decided. -/
def flaggedGroupsUpTo {Inp Out : Type} (successes hard_failures : Finset ℕ) :
    List (ConstraintState Inp Out) → ℕ → Finset ℕ → ℕ → Finset ℕ
  | [], _, groups, _ => groups
  | s :: rest, i, groups, k =>
      let s1 := if i ∈ successes then { s with success := true } else s
      let g1 :=
        if i ∈ successes ∧ s1.constraint.success_action = .DEACTIVATE then
          insert s1.constraint.group_id groups
        else groups
      let s2 := if i ∈ hard_failures then { s1 with failure := true } else s1
      let g2 :=
        if i ∈ hard_failures then insert s2.constraint.group_id g1 else g1
      match k with
      | 0 => g2
      | k' + 1 => flaggedGroupsUpTo successes hard_failures rest (i + 1) g2 k'

/-- `ConstrainingSpecification::active_constraints` (lines 136-142): the
states whose `is_active()` holds. -/
def activeConstraints {Inp Out : Type}
    (spec : ConstrainingSpecification Inp Out) :
    List (ConstraintState Inp Out) :=
  spec.constraint_states.filter (·.active)

/-- The seed-collection loop of
`ShiftAndKeepBestHalfExploration::next_points_from` (`exploration.cpp` lines
35-40): walk the scored generation from its best element (`rankings.begin()`,
the least element of the ordered set, here the head of the ascending list),
insert each point, and break once the running count reaches
`rankings.size()/2`.  The count check happens after the insertion, so at least
one point is kept from a non-empty generation. -/
def keepBestLoop : List PointScore → ℕ → ℕ → Finset ℕ
  | [], _, _ => ∅
  | p :: rest, cnt, threshold =>
      if cnt + 1 ≥ threshold then {p.point}
      else insert p.point (keepBestLoop rest (cnt + 1) threshold)

/-- `ShiftAndKeepBestHalfExploration::next_points_from` (`exploration.cpp`
lines 33-44).  `rankings` is the ordered set of point scores listed in
ascending (best-first) order; `extend` stands for the external ProNest
function `make_extended_set_by_shifting`, which pads a point set to the given
cardinality with shift neighbours of its members. -/
def nextPointsFrom (extend : Finset ℕ → ℕ → Finset ℕ)
    (rankings : List PointScore) : Finset ℕ :=
  extend (keepBestLoop rankings 0 (rankings.length / 2)) rankings.length

/-- Coordinate `k` of every best point in the generation history
(`ranking.point().coordinates()[k]` over `_best_rankings`). -/
def coordValues (pts : List (List ℤ)) (k : ℕ) : List ℤ :=
  pts.map (fun p => p.getD k 0)

/-- The scan of `TaskManager::optimal_point` over a frequency map
(`task_manager.cpp` lines 87-99): starting from the map's first entry, replace
the running best only on a strictly greater frequency, and return the winning
value.  The map iterates its keys in ascending order. -/
def modalFold : List (ℤ × ℕ) → ℤ × ℕ → ℤ
  | [], best => best.1
  | p :: rest, best => modalFold rest (if p.2 > best.2 then p else best)

/-- The per-coordinate computation of `TaskManager::optimal_point`: build the
frequency map of coordinate `k` (keys in ascending order, as in `std::map`)
and take the first value of maximal frequency. -/
def optimalCoord (pts : List (List ℤ)) (k : ℕ) : ℤ :=
  let vals := coordValues pts k
  let pairs := (vals.toFinset.sort (· ≤ ·)).map (fun v => (v, vals.count v))
  match pairs with
  | [] => 0
  | b :: rest => modalFold rest b

/-- `TaskManager::optimal_point` (`task_manager.cpp` lines 70-103): empty on
an empty history, otherwise the per-coordinate modal value over the recorded
best points.  The dimension is read off the first recorded point. -/
def optimalPoint (pts : List (List ℤ)) : List ℤ :=
  match pts with
  | [] => []
  | p :: _ => (List.range p.length).map (optimalCoord pts)

/-- The claim's reference recipe for `optimal_point`, written from the spec's
words for comparison with `optimalPoint`: per coordinate, the rounded mean
over the best points ("centroid rounding"). -/
def centroidOptimalPoint (pts : List (List ℤ)) : List ℤ :=
  match pts with
  | [] => []
  | p :: _ =>
      (List.range p.length).map (fun k =>
        round ((((coordValues pts k).map (fun v => (v : ℚ))).sum) / (pts.length : ℚ)))

/-- The claim's reference recurrence for `TimeProgressLinear`, written from
the spec's words for comparison with the controller embedding: with running
accumulator `acc` and previous time `tp`, a call at time `t = f input output`
returns `r - (t - tp) * acc`, then updates `acc` by `result / (tf - t)` and
`tp` to `t`. -/
def timeProgressClaimSequence {Inp Out : Type} (f : Inp → Out → ℚ) (tf : ℚ) :
    List (ℚ × Inp × Out) → ℚ → ℚ → List ℚ
  | [], _, _ => []
  | (r, i, o) :: rest, acc, tp =>
      let t := f i o
      let res := r - (t - tp) * acc
      res :: timeProgressClaimSequence f tf rest (acc + res / (tf - t)) t

/-- A throwaway default constraint state for `List.getD` projections in closed
statements (never actually selected). -/
def dummyState : ConstraintState ℚ Unit :=
  mkConstraintState ⟨0, .NONE, .NONE, .NONE, fun _ _ => 0, .identity⟩

/-- Two constraints sharing group `5`: the first (index 0) always succeeds
with no success action, the second (index 1) always hard-fails. -/
def specC1 : ConstrainingSpecification ℚ Unit :=
  mkConstrainingSpecification
    [⟨5, .NONE, .NONE, .NONE, fun _ _ => 1, .identity⟩,
     ⟨5, .NONE, .HARD, .NONE, fun _ _ => -1, .identity⟩]

/-- Three constraints: index 0 (group 0) always hard-fails, index 1 (group 0)
has failure kind `NONE` and negative robustness (so it is deactivated by the
group flag while neither succeeded nor failed), index 2 (group 1) succeeds
and stays active. -/
def specC2 : ConstrainingSpecification ℚ Unit :=
  mkConstrainingSpecification
    [⟨0, .NONE, .HARD, .NONE, fun _ _ => -1, .identity⟩,
     ⟨0, .NONE, .NONE, .SIGNED, fun _ _ => -2, .identity⟩,
     ⟨1, .NONE, .NONE, .NONE, fun _ _ => 1, .identity⟩]

/-- The state after one `update_from` on `specC2`: the state at index 1 is
inactive with neither success nor failure. -/
def spec1C2 : ConstrainingSpecification ℚ Unit := updateFrom specC2 0 ()

/-- Three constraints: index 0 (group 0) always hard-fails; index 1 (group 0,
success action `DEACTIVATE`) has robustness equal to the task input, negative
on the first call and positive on the second; index 2 (group 1) always
succeeds and stays active. -/
def specC3 : ConstrainingSpecification ℚ Unit :=
  mkConstrainingSpecification
    [⟨0, .NONE, .HARD, .NONE, fun _ _ => -1, .identity⟩,
     ⟨0, .DEACTIVATE, .NONE, .NONE, fun i _ => i, .identity⟩,
     ⟨1, .NONE, .NONE, .NONE, fun _ _ => 1, .identity⟩]

/-- `specC3` after `update_from` at input `-1` (which deactivates both group-0
states) and then at input `1` (where the already-inactive state at index 1
succeeds, re-flags group 0, and is deactivated — and counted — again). -/
def spec2C3 : ConstrainingSpecification ℚ Unit :=
  updateFrom (updateFrom specC3 (-1) ()) 1 ()

/-- A single soft signed constraint controlled by a `TimeProgressLinear`
controller whose time function reads the task input, with final time `10`. -/
def specC5 : ConstrainingSpecification ℚ Unit :=
  mkConstrainingSpecification
    [⟨0, .NONE, .SOFT, .SIGNED, fun _ _ => -2,
      .mkTimeProgressLinear (fun i _ => i) 10 0⟩]

/-- `specC5` after one `update_from` at time `1`: the constraint stays active
and unresolved, and its controller has advanced to accumulator `-2/9`,
previous time `1`. -/
def spec1C5 : ConstrainingSpecification ℚ Unit := updateFrom specC5 1 ()

/-- A generation of five distinct point scores, listed best first (ascending
score order): point `n` carries objective `n`. -/
def rank5 : List PointScore :=
  [⟨0, ⟨∅, ∅, ∅, 0⟩⟩, ⟨1, ⟨∅, ∅, ∅, 1⟩⟩, ⟨2, ⟨∅, ∅, ∅, 2⟩⟩,
   ⟨3, ⟨∅, ∅, ∅, 3⟩⟩, ⟨4, ⟨∅, ∅, ∅, 4⟩⟩]

/-- A concrete stand-in for `make_extended_set_by_shifting` that honours the
external contract at the calls below: it pads the given set to the requested
cardinality with fresh points (offset by 100). -/
def padC8 (s : Finset ℕ) (k : ℕ) : Finset ℕ :=
  s ∪ (Finset.range (k - s.card)).image (· + 100)

/-- The specification constructed from the empty constraint list. -/
def specC9 : ConstrainingSpecification ℚ Unit :=
  mkConstrainingSpecification []

/-- Rewrite the `active` flag of every constraint state (the state at overall
index `i` receives `fl i`), leaving constraints and the success/failure flags
untouched: used to state that `evaluate` never consults `active`. -/
def overrideActives {Inp Out : Type} (fl : ℕ → Bool) :
    List (ConstraintState Inp Out) → ℕ → List (ConstraintState Inp Out)
  | [], _ => []
  | s :: rest, i => { s with active := fl i } :: overrideActives fl rest (i + 1)

/-- `applyList` on a `timeProgressLinear` controller follows the claimed
recurrence from its current accumulator and previous time. -/
theorem applyList_timeProgress {Inp Out : Type} (f : Inp → Out → ℚ) (tf : ℚ) :
    ∀ (steps : List (ℚ × Inp × Out)) (tp acc : ℚ),
      ((RobustnessController.timeProgressLinear f tf tp acc).applyList steps).1 =
        timeProgressClaimSequence f tf steps acc tp := by
  intro steps
  induction steps with
  | nil => intro tp acc; rfl
  | cons step rest ih =>
      intro tp acc
      obtain ⟨r, i, o⟩ := step
      simp only [RobustnessController.applyList, RobustnessController.apply,
        timeProgressClaimSequence, List.cons.injEq, true_and]
      exact ih _ _

/-- With a zero accumulator the claimed recurrence does not depend on the
previous-time seed: the first returned value is the raw robustness either way
and both runs continue from the same state. -/
theorem timeProgressClaimSequence_zero_seed {Inp Out : Type}
    (f : Inp → Out → ℚ) (tf : ℚ) :
    ∀ (steps : List (ℚ × Inp × Out)) (tp tp' : ℚ),
      timeProgressClaimSequence f tf steps 0 tp =
        timeProgressClaimSequence f tf steps 0 tp' := by
  intro steps
  cases steps with
  | nil => intro tp tp'; rfl
  | cons step rest =>
      intro tp tp'
      obtain ⟨r, i, o⟩ := step
      simp [timeProgressClaimSequence]

/-- C7: a fresh `TimeProgressLinear` controller (accumulator `0`, arbitrary
uninitialised previous time `tp0`) fed any sequence of `apply` calls returns
exactly the sequence of the claimed recurrence started from accumulator `0`
and previous time `0`: each call with raw robustness `r` and current time
`t = t_func input output` returns `r - (t - t_prev) * A`, then updates
`A += result / (t_final - t)` and `t_prev = t`. -/
theorem timeProgressLinear_follows_claim {Inp Out : Type}
    (f : Inp → Out → ℚ) (tf tp0 : ℚ) (steps : List (ℚ × Inp × Out)) :
    ((RobustnessController.mkTimeProgressLinear f tf tp0).applyList steps).1 =
      timeProgressClaimSequence f tf steps 0 0 := by
  rw [RobustnessController.mkTimeProgressLinear, applyList_timeProgress]
  exact timeProgressClaimSequence_zero_seed f tf steps tp0 0

/-- Any run of a `timeProgressLinear` controller leaves it a
`timeProgressLinear` controller with the same time function and final time. -/
theorem applyList_timeProgress_shape {Inp Out : Type} (f : Inp → Out → ℚ)
    (tf : ℚ) :
    ∀ (steps : List (ℚ × Inp × Out)) (tp acc : ℚ),
      ∃ tp' acc',
        ((RobustnessController.timeProgressLinear f tf tp acc).applyList steps).2 =
          .timeProgressLinear f tf tp' acc' := by
  intro steps
  induction steps with
  | nil => intro tp acc; exact ⟨tp, acc, rfl⟩
  | cons step rest ih =>
      intro tp acc
      obtain ⟨r, i, o⟩ := step
      simpa [RobustnessController.applyList, RobustnessController.apply]
        using ih _ _

/-- Any run of the identity controller leaves it the identity controller. -/
theorem applyList_identity_shape {Inp Out : Type} :
    ∀ (steps : List (ℚ × Inp × Out)),
      (((RobustnessController.identity : RobustnessController Inp Out)).applyList steps).2 =
        .identity := by
  intro steps
  induction steps with
  | nil => rfl
  | cons step rest ih =>
      obtain ⟨r, i, o⟩ := step
      simpa [RobustnessController.applyList, RobustnessController.apply] using ih

/-- C10: `clone` resets the accumulated state: the clone of any controller has
accumulator `0`; cloning a controller after any number of `apply` calls gives
the same controller as cloning it before them (the accumulated history is
discarded); and the constraint produced by `ConstraintBuilder::build` carries
the clone of the supplied controller. -/
theorem clone_resets_accumulated_state {Inp Out : Type}
    (c : RobustnessController Inp Out) (steps : List (ℚ × Inp × Out))
    (tp0 : ℚ) (gid : ℕ) (sa : ConstraintSuccessAction)
    (fk : ConstraintFailureKind) (oi : ConstraintObjectiveImpact)
    (fn : Inp → Out → ℚ) :
    (c.clone tp0).accumulated = 0 ∧
      ((c.applyList steps).2).clone tp0 = c.clone tp0 ∧
      (buildConstraint gid sa fk oi fn c tp0).controller = c.clone tp0 := by
  refine ⟨?_, ?_, rfl⟩
  · cases c <;> rfl
  · cases c with
    | identity => rw [applyList_identity_shape]
    | timeProgressLinear f tf tp acc =>
        obtain ⟨tp', acc', h⟩ := applyList_timeProgress_shape f tf steps tp acc
        rw [h]
        rfl

/-- C1 counterexample: in `specC1` the hard failure at index 1 flags group 5,
yet after `update_from` the constraint state at the earlier index 0 — whose
group was flagged — is still active, because the single loop checked index 0
against the not-yet-populated flag set.  The claim's "including constraint
states at earlier indices" is false on the code. -/
theorem update_from_earlier_index_counterexample :
    5 ∈ updateFlaggedGroups specC1 0 () ∧
      ((updateFrom specC1 0 ()).constraint_states.getD 0 dummyState).active = true ∧
      ((updateFrom specC1 0 ()).constraint_states.getD 1 dummyState).active = false := by
  refine ⟨by decide, by decide, by decide⟩

/-- C2 counterexample: `spec1C2` has positive `num_active`, its state at
index 1 is inactive and neither succeeded nor failed, yet `evaluate` still
accumulates that state's signed contribution `-2` into the objective — the
returned score is not the score the claim predicts for
active-states-only accumulation (objective `0`). -/
theorem evaluate_inactive_contributes_counterexample :
    spec1C2.num_active_constraints = 1 ∧
      ((spec1C2.constraint_states.getD 1 dummyState).active = false ∧
        (spec1C2.constraint_states.getD 1 dummyState).success = false ∧
        (spec1C2.constraint_states.getD 1 dummyState).failure = false) ∧
      (evaluateScore spec1C2 0 ()).toOption = some ⟨∅, ∅, ∅, -2⟩ ∧
      (evaluateScore spec1C2 0 ()).toOption ≠ some ⟨∅, ∅, ∅, 0⟩ := by
  norm_num +decide [spec1C2, specC2, updateFrom, evaluateScore, evaluateFull, evalLoop,
    updateLoop, mkConstrainingSpecification, mkConstraintState, RobustnessController.apply,
    decrementSizeT, Except.map, Except.toOption, dummyState]

/-- C3 failing input: after the two `update_from` calls of `spec2C3` the
counter `_num_active_constraints` is `0` while exactly one constraint state
(`active_constraints()`) is still active: the loop decremented the counter for
an already-inactive state whose group was flagged again, so the claimed
invariant `num_active = |{s : s.active}|` is violated by the code. -/
theorem num_active_desync_failing_input :
    spec2C3.num_active_constraints = 0 ∧
      (activeConstraints spec2C3).length = 1 ∧
      spec2C3.num_active_constraints ≠ (activeConstraints spec2C3).length := by
  refine ⟨by decide, by decide, by decide⟩

/-- C4 counterexample: a three-generation history whose best points have the
single coordinate values `0, 0, 5`.  The code's `optimal_point` returns the
modal value `[0]`; the claim's centroid rounding would return
`round(5/3) = [2]`. -/
theorem optimal_point_modal_counterexample :
    optimalPoint [[0], [0], [5]] = [0] ∧
      centroidOptimalPoint [[0], [0], [5]] = [2] ∧
      optimalPoint [[0], [0], [5]] ≠ centroidOptimalPoint [[0], [0], [5]] := by
  have h1 : ∀ b ∈ ({5} : Finset ℤ), (fun a b => a ≤ b) 0 b := by decide
  have h2 : (0 : ℤ) ∉ ({5} : Finset ℤ) := by decide
  have hs : Finset.sort (fun a b => a ≤ b) ({0, 5} : Finset ℤ) = [0, 5] := by
    rw [Finset.sort_insert _ h1 h2, Finset.sort_singleton]
  norm_num +decide [optimalPoint, centroidOptimalPoint, optimalCoord, modalFold, coordValues,
    List.range_succ, hs, round_eq]

/-- C5 counterexample: on `spec1C5` (one active constraint), two successive
`evaluate` calls at time `2` return different scores — objective `-16/9`
first, `-2` second — and the first call moves the controller accumulator from
`-2/9` to `-4/9`.  `evaluate` advances controller state on every call (there
is no `update=false` path in the controller interface), so it is neither
idempotent nor state-preserving. -/
theorem evaluate_not_idempotent_counterexample :
    spec1C5.num_active_constraints = 1 ∧
      (evaluateScore spec1C5 2 ()).toOption = some ⟨∅, ∅, {0}, -16 / 9⟩ ∧
      (evaluateScore (evaluateState spec1C5 2 ()) 2 ()).toOption =
        some ⟨∅, ∅, {0}, -2⟩ ∧
      (some (⟨∅, ∅, {0}, -16 / 9⟩ : Score) ≠ some ⟨∅, ∅, {0}, -2⟩) ∧
      (spec1C5.constraint_states.getD 0 dummyState).constraint.controller.accumulated
          = -2 / 9 ∧
      ((evaluateState spec1C5 2 ()).constraint_states.getD 0
          dummyState).constraint.controller.accumulated = -4 / 9 := by
  norm_num +decide [spec1C5, specC5, updateFrom, evaluateScore, evaluateState, evaluateFull,
    evalLoop, updateLoop, mkConstrainingSpecification, mkConstraintState,
    RobustnessController.apply, RobustnessController.mkTimeProgressLinear,
    RobustnessController.accumulated, decrementSizeT, Except.map, Except.toOption, dummyState]

/-- C6 counterexample: two scores agreeing on hard failures, soft failures
and objective but with different success sets.  Neither is less than the
other and they are not equal under `operator==`, so the claimed trichotomy
"exactly one of `a < b`, `b < a`, `a == b`" fails: none of the three holds. -/
theorem score_order_trichotomy_counterexample :
    Score.lt ⟨{0}, ∅, ∅, 0⟩ ⟨∅, ∅, ∅, 0⟩ = false ∧
      Score.lt ⟨∅, ∅, ∅, 0⟩ ⟨{0}, ∅, ∅, 0⟩ = false ∧
      Score.eq ⟨{0}, ∅, ∅, 0⟩ ⟨∅, ∅, ∅, 0⟩ = false := by
  norm_num +decide [Score.lt, Score.eq, setLt, Finset.sort_empty, lexLt]

/-- C8 counterexample: with the K = 5 generation `rank5` (sorted best first)
the seed kept by `next_points_from` is `{0, 1}` — `K/2 = 2` points, not the
claimed `⌈K/2⌉ = 3` — so with a contract-honouring extension the third-best
point `2` is absent from the returned set and the claimed subset property
fails, even though the result has exactly `K` distinct points. -/
theorem keep_best_half_counterexample :
    List.Pairwise (fun a b => PointScore.lt a b = true) rank5 ∧
      keepBestLoop rank5 0 (rank5.length / 2) = {0, 1} ∧
      keepBestLoop rank5 0 (rank5.length / 2) ⊆
        padC8 (keepBestLoop rank5 0 (rank5.length / 2)) rank5.length ∧
      (padC8 (keepBestLoop rank5 0 (rank5.length / 2)) rank5.length).card = 5 ∧
      nextPointsFrom padC8 rank5 = {0, 1, 100, 101, 102} ∧
      ¬ ({0, 1, 2} ⊆ nextPointsFrom padC8 rank5) := by
  refine ⟨?_, by decide, by decide, by decide, by decide, by decide⟩
  norm_num +decide [rank5, PointScore.lt, Score.lt, Score.eq, setLt, Finset.sort_empty, lexLt,
    List.pairwise_cons]

/-- C9 counterexample: construction from the empty list succeeds with zero
active constraints and `evaluate` fails — but with the bare
`UTILITY_PRECONDITION` runtime error, not with the `NoActiveConstraints`
error carrying the constraint-state list (`NoActiveConstraintsException` is
defined in the header yet raised nowhere in `evaluate`). -/
theorem evaluate_error_kind_counterexample :
    specC9.num_active_constraints = 0 ∧
      evaluateScore specC9 0 () = .error .preconditionViolation ∧
      (Except.error SpecificationError.preconditionViolation ≠
        (.error (.noActiveConstraints specC9.constraint_states) :
          Except (SpecificationError ℚ Unit) Score)) := by
  refine ⟨rfl, rfl, ?_⟩
  intro h
  injection h with h2
  exact SpecificationError.noConfusion h2

/-- `evalLoop` returns as many states as it was given. -/
theorem evalLoop_length {Inp Out : Type} (input : Inp) (output : Out) :
    ∀ (states : List (ConstraintState Inp Out)) (i : ℕ),
      (evalLoop input output states i).2.2.2.2.length = states.length := by
  intro states
  induction states with
  | nil => intro i; rfl
  | cons s rest ih =>
      intro i
      simp only [evalLoop]
      split <;> simp [ih]

/-- A state whose group is flagged by the time the `update_from` loop reaches
it ends the loop deactivated. -/
theorem updateLoop_deactivates_flagged {Inp Out : Type}
    (successes hard_failures : Finset ℕ) :
    ∀ (states : List (ConstraintState Inp Out)) (i : ℕ) (g : Finset ℕ) (n : ℕ)
      (k : ℕ) (d : ConstraintState Inp Out), k < states.length →
      (states.getD k d).constraint.group_id ∈
        flaggedGroupsUpTo successes hard_failures states i g k →
      ((updateLoop successes hard_failures states i g n).1.getD k d).active = false := by
  intro states
  induction states with
  | nil => intro i g n k d hk; exact absurd hk (by simp)
  | cons s rest ih =>
      intro i g n k d hk hmem
      cases k with
      | zero =>
          simp only [flaggedGroupsUpTo, List.getD_cons_zero] at hmem
          simp only [updateLoop, List.getD_cons_zero]
          split_ifs at hmem ⊢ <;> simp_all
      | succ k =>
          simp only [flaggedGroupsUpTo, List.getD_cons_succ] at hmem
          simp only [updateLoop, List.getD_cons_succ]
          exact ih _ _ _ k d (by simpa using Nat.lt_of_succ_lt_succ hk) hmem

/-- C1 (amended): after `update_from`, every constraint state whose `group_id`
has been flagged for deactivation by a constraint at an index at or before its
own (a success with `success_action = DEACTIVATE` or a hard failure) is
inactive.  The original claim is amended because the loop is a single pass: a
constraint state at an index strictly before every constraint that flagged its
group is checked against a flag set that does not yet contain the group, so it
may remain active (see the counterexample). -/
theorem update_from_deactivates_flagged_groups {Inp Out : Type}
    (spec : ConstrainingSpecification Inp Out) (input : Inp) (output : Out)
    (h : 0 < spec.num_active_constraints) (k : ℕ) (d : ConstraintState Inp Out)
    (hk : k < spec.constraint_states.length)
    (hmem : (((evalLoop input output spec.constraint_states 0).2.2.2.2.getD k
        d).constraint.group_id) ∈
      flaggedGroupsUpTo (evalLoop input output spec.constraint_states 0).1
        (evalLoop input output spec.constraint_states 0).2.1
        (evalLoop input output spec.constraint_states 0).2.2.2.2 0 ∅ k) :
    ((updateFrom spec input output).constraint_states.getD k d).active = false := by
  simp only [updateFrom, evaluateFull, if_pos h]
  exact updateLoop_deactivates_flagged _ _ _ 0 ∅ _ k d
    (by rw [evalLoop_length]; exact hk) hmem

/-- Witness for the amended C1 at `specC1`: the state at index 1 (the hard
failure that flagged group 5) is inactive after `update_from`. -/
theorem update_from_deactivates_flagged_groups_witness :
    ((updateFrom specC1 0 ()).constraint_states.getD 1 dummyState).active = false :=
  update_from_deactivates_flagged_groups specC1 0 () (by decide) 1 dummyState
    (by decide) (by decide)

/-- C9 (amended): constructing a specification from the empty constraint list
succeeds (with zero active constraints), and `evaluate` on any specification
with `num_active_constraints = 0` never returns a `Score`: it fails — but
with the generic `UTILITY_PRECONDITION` violation, not with the
`NoActiveConstraints` error carrying the constraint states (that exception
type exists in the header and is raised by the runner, not by `evaluate`). -/
theorem evaluate_zero_active_fails {Inp Out : Type}
    (spec : ConstrainingSpecification Inp Out) (input : Inp) (output : Out)
    (h : spec.num_active_constraints = 0) :
    evaluateScore spec input output = .error .preconditionViolation ∧
      evaluateFull spec input output = .error .preconditionViolation ∧
      (mkConstrainingSpecification ([] : List (Constraint Inp Out))).num_active_constraints
        = 0 := by
  refine ⟨?_, ?_, rfl⟩ <;> simp [evaluateScore, evaluateFull, h, Except.map]

/-- Witness for the amended C9 at the empty specification. -/
theorem evaluate_zero_active_fails_witness :
    evaluateScore specC9 0 () = .error .preconditionViolation ∧
      evaluateFull specC9 0 () = .error .preconditionViolation ∧
      (mkConstrainingSpecification ([] : List (Constraint ℚ Unit))).num_active_constraints
        = 0 :=
  evaluate_zero_active_fails specC9 0 () rfl

/-- When every controller is the identity, the evaluation loop hands back the
state list unchanged. -/
theorem evalLoop_identity_states {Inp Out : Type} (input : Inp) (output : Out) :
    ∀ (states : List (ConstraintState Inp Out)) (i : ℕ),
      (∀ s ∈ states, s.constraint.controller = .identity) →
      (evalLoop input output states i).2.2.2.2 = states := by
  intro states
  induction states with
  | nil => intro i h; rfl
  | cons s rest ih =>
      intro i h
      have ht : ∀ x ∈ rest, x.constraint.controller = .identity :=
        fun x hx => h x (List.mem_cons_of_mem _ hx)
      obtain ⟨⟨g, sa, fk, oi, fn, ctl⟩, a, su, fa⟩ := s
      have hs : ctl = .identity := h _ (List.mem_cons_self _ _)
      subst hs
      simp only [evalLoop]
      split <;> simp [RobustnessController.apply, ih _ ht]

/-- C5 (amended): `evaluate` advances the controller of every unresolved
constraint on each call (the controller interface carries no `update` flag and
its `apply` documents that it may mutate the controller), so the claim holds
only for stateless controllers: when every controller is the identity,
`evaluate` leaves the specification unchanged and a second call returns the
same `Score`.  With a `TimeProgressLinear` controller the accumulator moves on
every call and the two scores can differ (see the counterexample). -/
theorem evaluate_pure_for_identity_controllers {Inp Out : Type}
    (spec : ConstrainingSpecification Inp Out) (input : Inp) (output : Out)
    (h : ∀ s ∈ spec.constraint_states,
      s.constraint.controller = RobustnessController.identity) :
    evaluateState spec input output = spec ∧
      evaluateScore (evaluateState spec input output) input output =
        evaluateScore spec input output := by
  have hst := evalLoop_identity_states input output spec.constraint_states 0 h
  have h1 : evaluateState spec input output = spec := by
    by_cases hnum : spec.num_active_constraints > 0
    · simp only [evaluateState, evaluateFull, if_pos hnum]
      rw [hst]
    · simp only [evaluateState, evaluateFull, if_neg hnum]
  exact ⟨h1, by rw [h1]⟩

/-- Witness for the amended C5 at `specC2` (all identity controllers). -/
theorem evaluate_pure_for_identity_controllers_witness :
    evaluateState specC2 0 () = specC2 ∧
      evaluateScore (evaluateState specC2 0 ()) 0 () = evaluateScore specC2 0 () :=
  evaluate_pure_for_identity_controllers specC2 0 ()
    (by simp [specC2, mkConstrainingSpecification, mkConstraintState])

/-- The evaluation loop never reads the `active` flag: overriding every
`active` flag leaves all four score components unchanged. -/
theorem evalLoop_overrideActives {Inp Out : Type} (input : Inp) (output : Out)
    (fl : ℕ → Bool) :
    ∀ (states : List (ConstraintState Inp Out)) (i : ℕ),
      (evalLoop input output (overrideActives fl states i) i).1 =
          (evalLoop input output states i).1 ∧
        (evalLoop input output (overrideActives fl states i) i).2.1 =
          (evalLoop input output states i).2.1 ∧
        (evalLoop input output (overrideActives fl states i) i).2.2.1 =
          (evalLoop input output states i).2.2.1 ∧
        (evalLoop input output (overrideActives fl states i) i).2.2.2.1 =
          (evalLoop input output states i).2.2.2.1 := by
  intro states
  induction states with
  | nil => intro i; exact ⟨rfl, rfl, rfl, rfl⟩
  | cons s rest ih =>
      intro i
      obtain ⟨ih1, ih2, ih3, ih4⟩ := ih (i + 1)
      simp only [overrideActives, evalLoop]
      split <;> simp_all

/-- Every index in a score component produced by the evaluation loop is at
least the loop's starting index. -/
theorem evalLoop_mem_ge {Inp Out : Type} (input : Inp) (output : Out) :
    ∀ (states : List (ConstraintState Inp Out)) (i m : ℕ),
      (m ∈ (evalLoop input output states i).1 ∨
        m ∈ (evalLoop input output states i).2.1 ∨
        m ∈ (evalLoop input output states i).2.2.1) → i ≤ m := by
  intro states
  induction states with
  | nil => intro i m hm; simp [evalLoop] at hm
  | cons s rest ih =>
      intro i m hm
      simp only [evalLoop] at hm
      split at hm
      · dsimp only at hm
        rcases hm with hm | hm | hm
        · split_ifs at hm with hc
          · exact Nat.le_of_succ_le (ih (i + 1) m (Or.inl hm))
          · rcases Finset.mem_insert.mp hm with rfl | hm
            · exact le_refl m
            · exact Nat.le_of_succ_le (ih (i + 1) m (Or.inl hm))
        · split_ifs at hm with hc
          · rcases Finset.mem_insert.mp hm with rfl | hm
            · exact le_refl m
            · exact Nat.le_of_succ_le (ih (i + 1) m (Or.inr (Or.inl hm)))
          · exact Nat.le_of_succ_le (ih (i + 1) m (Or.inr (Or.inl hm)))
        · split_ifs at hm with hc
          · rcases Finset.mem_insert.mp hm with rfl | hm
            · exact le_refl m
            · exact Nat.le_of_succ_le (ih (i + 1) m (Or.inr (Or.inr hm)))
          · exact Nat.le_of_succ_le (ih (i + 1) m (Or.inr (Or.inr hm)))
      · dsimp only at hm
        exact Nat.le_of_succ_le (ih (i + 1) m hm)

/-- A resolved state (success or failure already set) at position `k`
contributes its index to none of the three index sets. -/
theorem evalLoop_resolved_not_mem {Inp Out : Type} (input : Inp) (output : Out) :
    ∀ (states : List (ConstraintState Inp Out)) (i k : ℕ)
      (d : ConstraintState Inp Out), k < states.length →
      ((states.getD k d).success = true ∨ (states.getD k d).failure = true) →
      (i + k) ∉ (evalLoop input output states i).1 ∧
        (i + k) ∉ (evalLoop input output states i).2.1 ∧
        (i + k) ∉ (evalLoop input output states i).2.2.1 := by
  intro states
  induction states with
  | nil => intro i k d hk; exact absurd hk (by simp)
  | cons s rest ih =>
      intro i k d hk hres
      cases k with
      | zero =>
          simp only [List.getD_cons_zero] at hres
          have hguard : (!s.success && !s.failure) = false := by
            rcases hres with h | h <;> simp [h]
          simp only [evalLoop, hguard, Bool.false_eq_true, if_false]
          refine ⟨?_, ?_, ?_⟩ <;>
            · intro hm
              have := evalLoop_mem_ge input output rest (i + 1) (i + 0) (by tauto)
              omega
      | succ k =>
          simp only [List.getD_cons_succ] at hres
          have hk' : k < rest.length := by simpa using Nat.lt_of_succ_lt_succ hk
          have htail := ih (i + 1) k d hk' hres
          have hne : i + (k + 1) = (i + 1) + k := by omega
          simp only [evalLoop]
          split
          · dsimp only
            refine ⟨?_, ?_, ?_⟩
            · intro hm
              split_ifs at hm with hc
              · exact htail.1 (hne ▸ hm)
              · rcases Finset.mem_insert.mp hm with h | h
                · omega
                · exact htail.1 (hne ▸ h)
            · intro hm
              split_ifs at hm with hc
              · rcases Finset.mem_insert.mp hm with h | h
                · omega
                · exact htail.2.1 (hne ▸ h)
              · exact htail.2.1 (hne ▸ hm)
            · intro hm
              split_ifs at hm with hc
              · rcases Finset.mem_insert.mp hm with h | h
                · omega
                · exact htail.2.2 (hne ▸ h)
              · exact htail.2.2 (hne ▸ hm)
          · rw [hne]; exact htail

/-- C2 (amended): `evaluate` accumulates contributions from exactly the
constraint states that neither succeeded nor failed — the `active` flag is
never consulted, so overriding every `active` flag arbitrarily leaves the
returned `Score` unchanged (in particular an inactive-but-unresolved state
still contributes, see the counterexample), while a state already marked
succeeded or failed contributes to none of the index sets. -/
theorem evaluate_reads_only_resolution_flags {Inp Out : Type}
    (spec : ConstrainingSpecification Inp Out) (input : Inp) (output : Out)
    (fl : ℕ → Bool) (k : ℕ) (d : ConstraintState Inp Out) (sc : Score)
    (hk : k < spec.constraint_states.length)
    (hres : (spec.constraint_states.getD k d).success = true ∨
      (spec.constraint_states.getD k d).failure = true)
    (hsc : evaluateScore spec input output = .ok sc) :
    evaluateScore
        ⟨overrideActives fl spec.constraint_states 0, spec.num_active_constraints⟩
        input output = evaluateScore spec input output ∧
      k ∉ sc.successes ∧ k ∉ sc.hard_failures ∧ k ∉ sc.soft_failures := by
  obtain ⟨h1, h2, h3, h4⟩ := evalLoop_overrideActives input output fl
    spec.constraint_states 0
  constructor
  · simp only [evaluateScore, evaluateFull]
    by_cases hnum : spec.num_active_constraints > 0
    · rw [if_pos hnum, if_pos hnum]
      simp [Except.map, h1, h2, h3, h4]
    · rw [if_neg hnum, if_neg hnum]
  · simp only [evaluateScore, evaluateFull] at hsc
    by_cases hnum : spec.num_active_constraints > 0
    · rw [if_pos hnum] at hsc
      simp only [Except.map, Except.ok.injEq] at hsc
      have hmem := evalLoop_resolved_not_mem input output spec.constraint_states
        0 k d hk hres
      rw [← hsc]
      simpa using hmem
    · rw [if_neg hnum] at hsc
      simp [Except.map] at hsc

/-- Like `specC2` but with no objective impact anywhere, after one
`update_from`: its state at index 1 is inactive and unresolved; used as the
witness instance for the amended C2. -/
def spec1C2w : ConstrainingSpecification ℚ Unit :=
  updateFrom (mkConstrainingSpecification
    [⟨0, .NONE, .HARD, .NONE, fun _ _ => -1, .identity⟩,
     ⟨0, .NONE, .NONE, .NONE, fun _ _ => -2, .identity⟩,
     ⟨1, .NONE, .NONE, .NONE, fun _ _ => 1, .identity⟩]) 0 ()

/-- Witness for the amended C2 at `spec1C2w`, with every `active` flag forced
off and the resolved state at index 0. -/
theorem evaluate_reads_only_resolution_flags_witness :
    evaluateScore
        ⟨overrideActives (fun _ => false) spec1C2w.constraint_states 0,
          spec1C2w.num_active_constraints⟩ 0 () = evaluateScore spec1C2w 0 () ∧
      0 ∉ (⟨∅, ∅, ∅, 0⟩ : Score).successes ∧
      0 ∉ (⟨∅, ∅, ∅, 0⟩ : Score).hard_failures ∧
      0 ∉ (⟨∅, ∅, ∅, 0⟩ : Score).soft_failures :=
  evaluate_reads_only_resolution_flags spec1C2w 0 () (fun _ => false) 0
    dummyState ⟨∅, ∅, ∅, 0⟩ (by decide) (by decide)
    (by simp +decide [spec1C2w, updateFrom, evaluateScore, evaluateFull, evalLoop,
      updateLoop, mkConstrainingSpecification, mkConstraintState,
      RobustnessController.apply, decrementSizeT, Except.map])

/-- The seed loop keeps exactly the first `max 1 (threshold - cnt)` points of
the generation (the count check runs after the insertion, so a non-empty
generation always contributes at least its best point). -/
theorem keepBestLoop_eq_take :
    ∀ (l : List PointScore) (cnt n : ℕ),
      keepBestLoop l cnt n = ((l.take (max 1 (n - cnt))).map (·.point)).toFinset := by
  intro l
  induction l with
  | nil => intro cnt n; simp [keepBestLoop]
  | cons p rest ih =>
      intro cnt n
      by_cases h : cnt + 1 ≥ n
      · have h2 : max 1 (n - cnt) = 1 := by omega
        simp [keepBestLoop, if_pos h, h2]
      · have h2 : max 1 (n - cnt) = n - cnt := by omega
        have h3 : n - cnt = (n - (cnt + 1)) + 1 := by omega
        have h4 : max 1 (n - (cnt + 1)) = n - (cnt + 1) := by omega
        rw [keepBestLoop, if_neg h, ih (cnt + 1) n, h2, h3, h4,
          List.take_succ_cons, List.map_cons, List.toFinset_cons]

/-- C8 (amended): on a generation of K point scores listed best first,
`next_points_from` keeps the points of the first `max(1, ⌊K/2⌋)` scores as the
seed set (the loop breaks once the counter reaches `K/2` in integer division —
`⌊K/2⌋`, not the claimed `⌈K/2⌉`, so for odd K ≥ 3 one fewer point is kept),
hands the seed to the external `make_extended_set_by_shifting`, and — whenever
that external call honours its contract of returning a K-element superset of
the seed — the returned set has exactly K distinct points containing the kept
best points. -/
theorem next_points_keeps_floor_half
    (extend : Finset ℕ → ℕ → Finset ℕ) (rankings : List PointScore)
    (hsorted : List.Pairwise (fun a b => PointScore.lt a b = true) rankings)
    (hsub : keepBestLoop rankings 0 (rankings.length / 2) ⊆
      extend (keepBestLoop rankings 0 (rankings.length / 2)) rankings.length)
    (hcard : (extend (keepBestLoop rankings 0 (rankings.length / 2))
      rankings.length).card = rankings.length) :
    keepBestLoop rankings 0 (rankings.length / 2) =
        ((rankings.take (max 1 (rankings.length / 2))).map (·.point)).toFinset ∧
      keepBestLoop rankings 0 (rankings.length / 2) ⊆
        nextPointsFrom extend rankings ∧
      (nextPointsFrom extend rankings).card = rankings.length :=
  ⟨by simpa using keepBestLoop_eq_take rankings 0 (rankings.length / 2),
    hsub, hcard⟩

/-- Witness for the amended C8 at the sorted five-element generation `rank5`
with the contract-honouring extension `padC8`. -/
theorem next_points_keeps_floor_half_witness :
    keepBestLoop rank5 0 (rank5.length / 2) =
        ((rank5.take (max 1 (rank5.length / 2))).map (·.point)).toFinset ∧
      keepBestLoop rank5 0 (rank5.length / 2) ⊆ nextPointsFrom padC8 rank5 ∧
      (nextPointsFrom padC8 rank5).card = rank5.length :=
  next_points_keeps_floor_half padC8 rank5
    (by simp +decide [rank5, PointScore.lt, Score.lt, Score.eq, setLt,
      Finset.sort_empty, lexLt, List.pairwise_cons])
    (by decide) (by decide)

/-- The frequency scan keeps the first entry of maximal frequency: on a list
of (value, frequency) pairs with strictly increasing values, starting from the
running best `b`, it returns the value of a pair of maximal frequency, and the
smallest value among the pairs attaining that frequency. -/
theorem modalFold_first_max :
    ∀ (l : List (ℤ × ℕ)) (b : ℤ × ℕ),
      List.Pairwise (fun p q : ℤ × ℕ => p.1 < q.1) (b :: l) →
      ∃ p, (p = b ∨ p ∈ l) ∧ modalFold l b = p.1 ∧
        (∀ q, (q = b ∨ q ∈ l) → q.2 ≤ p.2) ∧
        (∀ q, (q = b ∨ q ∈ l) → q.2 = p.2 → p.1 ≤ q.1) := by
  intro l
  induction l with
  | nil =>
      intro b hp
      refine ⟨b, Or.inl rfl, rfl, ?_, ?_⟩
      · rintro q (rfl | hq)
        · exact le_refl _
        · cases hq
      · rintro q (rfl | hq) _
        · exact le_refl _
        · cases hq
  | cons x rest ih =>
      intro b hp
      have hbx : b.1 < x.1 :=
        (List.pairwise_cons.mp hp).1 x (List.mem_cons_self _ _)
      have hxrest : List.Pairwise (fun p q : ℤ × ℕ => p.1 < q.1) (x :: rest) :=
        (List.pairwise_cons.mp hp).2
      have hbrest : ∀ q ∈ rest, b.1 < q.1 :=
        fun q hq => (List.pairwise_cons.mp hp).1 q (List.mem_cons_of_mem _ hq)
      have hp' : List.Pairwise (fun p q : ℤ × ℕ => p.1 < q.1)
          ((if x.2 > b.2 then x else b) :: rest) := by
        by_cases hx : x.2 > b.2
        · simpa [hx] using hxrest
        · simp only [hx, if_false]
          exact List.pairwise_cons.mpr ⟨hbrest, hxrest.of_cons⟩
      obtain ⟨p, hmem, heq, hmax, htie⟩ := ih _ hp'
      have hmax' : ∀ q, (q = b ∨ q = x ∨ q ∈ rest) → q.2 ≤ p.2 := by
        rintro q (rfl | rfl | hq)
        · by_cases hx : x.2 > q.2
          · have := hmax _ (Or.inl rfl)
            rw [if_pos hx] at this
            omega
          · have := hmax _ (Or.inl rfl)
            rw [if_neg hx] at this
            omega
        · by_cases hx : q.2 > b.2
          · have := hmax _ (Or.inl rfl)
            rw [if_pos hx] at this
            omega
          · have := hmax _ (Or.inl rfl)
            rw [if_neg hx] at this
            omega
        · exact hmax q (Or.inr hq)
      refine ⟨p, ?_, ?_, ?_, ?_⟩
      · rcases hmem with rfl | hpm
        · by_cases hx : x.2 > b.2
          · rw [if_pos hx]
            exact Or.inr (List.mem_cons_self _ _)
          · rw [if_neg hx]
            exact Or.inl rfl
        · exact Or.inr (List.mem_cons_of_mem _ hpm)
      · simpa [modalFold] using heq
      · rintro q (rfl | hq)
        · exact hmax' q (Or.inl rfl)
        · rcases List.mem_cons.mp hq with rfl | hq
          · exact hmax' q (Or.inr (Or.inl rfl))
          · exact hmax' q (Or.inr (Or.inr hq))
      · rintro q (rfl | hq) hq2
        · by_cases hx : x.2 > q.2
          · have hxle := hmax _ (Or.inl rfl)
            rw [if_pos hx] at hxle
            omega
          · have : p.1 ≤ q.1 := by
              refine htie q ?_ hq2
              rw [if_neg hx]
              exact Or.inl rfl
            exact this
        · rcases List.mem_cons.mp hq with rfl | hq
          · by_cases hx : q.2 > b.2
            · refine htie q ?_ hq2
              rw [if_pos hx]
              exact Or.inl rfl
            · have hble := hmax' b (Or.inl rfl)
              have hqb : q.2 ≤ b.2 := by omega
              have hb2 : b.2 = p.2 := by omega
              have hpb : p.1 ≤ b.1 := by
                refine htie b ?_ hb2
                rw [if_neg hx]
                exact Or.inl rfl
              omega
          · exact htie q (Or.inr hq) hq2

/-- `optimalCoord` returns a coordinate value of maximal frequency across the
recorded best points, and the smallest such value on frequency ties. -/
theorem optimalCoord_modal (pts : List (List ℤ)) (k : ℕ) (hne : pts ≠ []) :
    optimalCoord pts k ∈ coordValues pts k ∧
      (∀ w ∈ coordValues pts k,
        (coordValues pts k).count w ≤
          (coordValues pts k).count (optimalCoord pts k)) ∧
      (∀ w ∈ coordValues pts k,
        (coordValues pts k).count w =
            (coordValues pts k).count (optimalCoord pts k) →
          optimalCoord pts k ≤ w) := by
  have hvals : coordValues pts k ≠ [] := by
    simp [coordValues, hne]
  set vals := coordValues pts k with hv
  have hkeys : (vals.toFinset.sort (· ≤ ·)) ≠ [] := by
    intro hemp
    have : vals.toFinset = ∅ := by
      have := Finset.sort_eq (· ≤ ·) vals.toFinset
      rw [hemp] at this
      exact Finset.val_eq_zero.mp (by simpa using this.symm)
    rcases List.exists_mem_of_ne_nil vals hvals with ⟨a, ha⟩
    have : a ∈ vals.toFinset := List.mem_toFinset.mpr ha
    simp_all
  obtain ⟨v0, ktail, hkt⟩ := List.exists_cons_of_ne_nil hkeys
  have hsortedlt : List.Pairwise (· < ·) (vals.toFinset.sort (· ≤ ·)) :=
    Finset.sort_sorted_lt _
  have hpairs : List.Pairwise (fun p q : ℤ × ℕ => p.1 < q.1)
      ((vals.toFinset.sort (· ≤ ·)).map (fun v => (v, vals.count v))) :=
    List.pairwise_map.mpr (by simpa using hsortedlt)
  rw [hkt, List.map_cons] at hpairs
  have hoc : optimalCoord pts k =
      modalFold (ktail.map (fun v => (v, vals.count v))) (v0, vals.count v0) := by
    rw [optimalCoord]
    rw [← hv, hkt, List.map_cons]
  obtain ⟨p, hmem, heq, hmax, htie⟩ := modalFold_first_max _ _ hpairs
  have hpmem : p ∈ ((v0 :: ktail).map (fun v => (v, vals.count v))) := by
    rcases hmem with rfl | hpm
    · exact List.mem_cons_self _ _
    · exact List.mem_cons_of_mem _ hpm
  obtain ⟨vp, hvp, hvpeq⟩ := List.mem_map.mp hpmem
  have hvpmem : vp ∈ vals := by
    have : vp ∈ vals.toFinset.sort (· ≤ ·) := by rw [hkt]; exact hvp
    exact List.mem_toFinset.mp (by rwa [Finset.mem_sort] at this)
  have hocp : optimalCoord pts k = vp := by
    rw [hoc, heq, ← hvpeq]
  have hcount : p.2 = vals.count vp := by rw [← hvpeq]
  have hqmem : ∀ w, w ∈ vals → ((w, vals.count w) = (v0, vals.count v0) ∨
      (w, vals.count w) ∈ ktail.map (fun v => (v, vals.count v))) := by
    intro w hw
    have hw2 : w ∈ vals.toFinset.sort (· ≤ ·) := by
      rw [Finset.mem_sort]
      exact List.mem_toFinset.mpr hw
    rw [hkt] at hw2
    rcases List.mem_cons.mp hw2 with rfl | hw3
    · exact Or.inl rfl
    · exact Or.inr (List.mem_map.mpr ⟨w, hw3, rfl⟩)
  refine ⟨?_, ?_, ?_⟩
  · rw [hocp]; exact hvpmem
  · intro w hw
    have h5 := hmax _ (hqmem w hw)
    rw [hocp, ← hcount]
    exact h5
  · intro w hw hcnt
    rw [hocp] at hcnt
    have h5 : p.1 ≤ (w, vals.count w).1 :=
      htie _ (hqmem w hw) (by simp [hcount, hcnt])
    rw [hocp]
    rw [← hvpeq] at h5
    simpa using h5

/-- C4 (amended): with a non-empty generation history, `optimal_point` has one
entry per search-space dimension and its coordinate `k` is the most frequent
value of coordinate `k` over the per-generation best points — a modal argmax
with ties broken toward the smallest value (ascending `std::map` scan with a
strictly-greater replacement test) — not the rounded mean, which differs on
the counterexample; with an empty history it returns the empty list. -/
theorem optimal_point_is_modal (pts : List (List ℤ)) (k : ℕ)
    (hne : pts ≠ []) (hk : k < (pts.headD []).length) :
    (optimalPoint pts).length = (pts.headD []).length ∧
      (optimalPoint pts).getD k 0 = optimalCoord pts k ∧
      (optimalPoint pts).getD k 0 ∈ coordValues pts k ∧
      (∀ w ∈ coordValues pts k,
        (coordValues pts k).count w ≤
          (coordValues pts k).count ((optimalPoint pts).getD k 0)) ∧
      (∀ w ∈ coordValues pts k,
        (coordValues pts k).count w =
            (coordValues pts k).count ((optimalPoint pts).getD k 0) →
          (optimalPoint pts).getD k 0 ≤ w) ∧
      optimalPoint ([] : List (List ℤ)) = [] := by
  obtain ⟨p, tl, rfl⟩ := List.exists_cons_of_ne_nil hne
  have hgd : (optimalPoint (p :: tl)).getD k 0 = optimalCoord (p :: tl) k := by
    rw [optimalPoint]
    rw [List.getD_eq_getElem _ _ (by simpa using hk)]
    simp
  obtain ⟨hm1, hm2, hm3⟩ := optimalCoord_modal (p :: tl) k (by simp)
  refine ⟨by simp [optimalPoint], hgd, ?_, ?_, ?_, rfl⟩
  · rw [hgd]; exact hm1
  · intro w hw; rw [hgd]; exact hm2 w hw
  · intro w hw; rw [hgd]; exact hm3 w hw

/-- Witness for the amended C4 at the three-generation history
`[[0], [0], [5]]` and coordinate `0`. -/
theorem optimal_point_is_modal_witness :
    (optimalPoint [[0], [0], [5]]).length = ([[0], [0], [5]].headD []).length ∧
      (optimalPoint [[0], [0], [5]]).getD 0 0 = optimalCoord [[0], [0], [5]] 0 ∧
      (optimalPoint [[0], [0], [5]]).getD 0 0 ∈ coordValues [[0], [0], [5]] 0 ∧
      (∀ w ∈ coordValues [[0], [0], [5]] 0,
        (coordValues [[0], [0], [5]] 0).count w ≤
          (coordValues [[0], [0], [5]] 0).count
            ((optimalPoint [[0], [0], [5]]).getD 0 0)) ∧
      (∀ w ∈ coordValues [[0], [0], [5]] 0,
        (coordValues [[0], [0], [5]] 0).count w =
            (coordValues [[0], [0], [5]] 0).count
              ((optimalPoint [[0], [0], [5]]).getD 0 0) →
          (optimalPoint [[0], [0], [5]]).getD 0 0 ≤ w) ∧
      optimalPoint ([] : List (List ℤ)) = [] :=
  optimal_point_is_modal [[0], [0], [5]] 0 (by decide) (by decide)

/-- Lexicographic list comparison is irreflexive. -/
theorem lexLt_irrefl : ∀ x : List ℕ, lexLt x x = false := by
  intro x
  induction x with
  | nil => rfl
  | cons a as ih => simp [lexLt, lt_self_iff_false, ih]

/-- Lexicographic list comparison is asymmetric. -/
theorem lexLt_asymm : ∀ x y : List ℕ, lexLt x y = true → lexLt y x = false := by
  intro x
  induction x with
  | nil =>
      intro y h
      cases y with
      | nil => simp [lexLt] at h
      | cons b bs => rfl
  | cons a as ih =>
      intro y h
      cases y with
      | nil => simp [lexLt] at h
      | cons b bs =>
          by_cases hab : a < b
          · have hba : ¬ b < a := by omega
            simp [lexLt, hab, hba]
          · by_cases hba : b < a
            · simp [lexLt, hab, hba] at h
            · have h' : lexLt as bs = true := by simpa [lexLt, hab, hba] using h
              simpa [lexLt, hab, hba] using ih bs h'

/-- Lexicographic list comparison is transitive. -/
theorem lexLt_trans : ∀ x y z : List ℕ,
    lexLt x y = true → lexLt y z = true → lexLt x z = true := by
  intro x
  induction x with
  | nil =>
      intro y z hxy hyz
      cases z with
      | nil =>
          cases y with
          | nil => simpa using hxy
          | cons b bs => simp [lexLt] at hyz
      | cons c cs => rfl
  | cons a as ih =>
      intro y z hxy hyz
      cases y with
      | nil => simp [lexLt] at hxy
      | cons b bs =>
          cases z with
          | nil => simp [lexLt] at hyz
          | cons c cs =>
              by_cases hab : a < b
              · by_cases hbc : b < c
                · have hac : a < c := by omega
                  simp [lexLt, hac]
                · by_cases hcb : c < b
                  · simp [lexLt, hbc, hcb] at hyz
                  · have hbc2 : b = c := by omega
                    subst hbc2
                    simp [lexLt, hab]
              · by_cases hba : b < a
                · simp [lexLt, hab, hba] at hxy
                · have hab2 : a = b := by omega
                  subst hab2
                  by_cases hac : a < c
                  · simp [lexLt, hac]
                  · by_cases hca : c < a
                    · simp [lexLt, hac, hca] at hyz
                    · have h1 : lexLt as bs = true := by
                        simpa [lexLt, lt_self_iff_false] using hxy
                      have h2 : lexLt bs cs = true := by
                        simpa [lexLt, hac, hca] using hyz
                      simpa [lexLt, hac, hca] using ih bs cs h1 h2

/-- Two lists neither of which lexicographically precedes the other are
equal. -/
theorem lexLt_eq_of_not : ∀ x y : List ℕ,
    lexLt x y = false → lexLt y x = false → x = y := by
  intro x
  induction x with
  | nil =>
      intro y h1 h2
      cases y with
      | nil => rfl
      | cons b bs => simp [lexLt] at h1
  | cons a as ih =>
      intro y h1 h2
      cases y with
      | nil => simp [lexLt] at h2
      | cons b bs =>
          by_cases hab : a < b
          · simp [lexLt, hab] at h1
          · by_cases hba : b < a
            · simp [lexLt, hba] at h2
            · have hab2 : a = b := by omega
              subst hab2
              have h1' : lexLt as bs = false := by
                simpa [lexLt, lt_self_iff_false] using h1
              have h2' : lexLt bs as = false := by
                simpa [lexLt, lt_self_iff_false] using h2
              rw [ih bs h1' h2']

/-- Two index sets with the same ascending element list are equal. -/
theorem sort_le_inj (x y : Finset ℕ)
    (h : x.sort (· ≤ ·) = y.sort (· ≤ ·)) : x = y := by
  ext a
  constructor <;> intro ha
  · have hm : a ∈ x.sort (· ≤ ·) := (Finset.mem_sort (α := ℕ) (· ≤ ·)).mpr ha
    rw [h] at hm
    exact (Finset.mem_sort (α := ℕ) (· ≤ ·)).mp hm
  · have hm : a ∈ y.sort (· ≤ ·) := (Finset.mem_sort (α := ℕ) (· ≤ ·)).mpr ha
    rw [← h] at hm
    exact (Finset.mem_sort (α := ℕ) (· ≤ ·)).mp hm

/-- `operator<` on index sets is irreflexive. -/
theorem setLt_irrefl (x : Finset ℕ) : setLt x x = false :=
  lexLt_irrefl _

/-- `operator<` on index sets is transitive. -/
theorem setLt_trans (x y z : Finset ℕ) (h1 : setLt x y = true)
    (h2 : setLt y z = true) : setLt x z = true :=
  lexLt_trans _ _ _ h1 h2

/-- Index sets neither of which precedes the other are equal. -/
theorem setLt_eq_of_not (x y : Finset ℕ) (h1 : setLt x y = false)
    (h2 : setLt y x = false) : x = y :=
  sort_le_inj x y (lexLt_eq_of_not _ _ h1 h2)

/-- Unfolding of `Score::operator<` into its lexicographic reading on
(hard failures, soft failures, objective). -/
theorem scoreLt_iff (a b : Score) :
    Score.lt a b = true ↔
      (setLt a.hard_failures b.hard_failures = true ∨
        (a.hard_failures = b.hard_failures ∧
          (setLt a.soft_failures b.soft_failures = true ∨
            (a.soft_failures = b.soft_failures ∧ a.objective < b.objective)))) := by
  unfold Score.lt
  split_ifs with h1 h2 h3 h4
  · simp [h1]
  · simp only [Bool.false_eq_true, false_iff]
    rintro (hc | ⟨hc, _⟩)
    · exact h1 hc
    · rw [hc] at h2
      exact absurd h2 (by simp [setLt_irrefl])
  · have hhard : a.hard_failures = b.hard_failures :=
      setLt_eq_of_not _ _ (by simpa using h1) (by simpa using h2)
    simp [h3, hhard]
  · have hhard : a.hard_failures = b.hard_failures :=
      setLt_eq_of_not _ _ (by simpa using h1) (by simpa using h2)
    simp only [Bool.false_eq_true, false_iff]
    rintro (hc | ⟨_, hc | ⟨hc, _⟩⟩)
    · rw [hhard] at hc
      exact absurd hc (by simp [setLt_irrefl])
    · exact h3 hc
    · rw [hc] at h4
      exact absurd h4 (by simp [setLt_irrefl])
  · have hhard : a.hard_failures = b.hard_failures :=
      setLt_eq_of_not _ _ (by simpa using h1) (by simpa using h2)
    have hsoft : a.soft_failures = b.soft_failures :=
      setLt_eq_of_not _ _ (by simpa using h3) (by simpa using h4)
    simp [hhard, hsoft, setLt_irrefl]

/-- C6 (amended): `Score::operator<` is a strict weak order whose equivalence
classes are given by agreement on (hard failures, soft failures, objective):
it is transitive and asymmetric, two scores neither of which is less agree on
those three components, agreement on them forces non-lessness, and
`operator==` implies non-lessness both ways.  The original claim is amended
because `operator==` additionally compares the success sets, so two scores
with equal failures and objective but different successes satisfy none of
`a < b`, `b < a`, `a == b` (see the counterexample): the trichotomy holds for
component agreement, not for `operator==`. -/
theorem score_lt_strict_weak_order :
    (∀ a b c : Score, Score.lt a b = true → Score.lt b c = true →
      Score.lt a c = true) ∧
      (∀ a b : Score, Score.lt a b = true → Score.lt b a = false) ∧
      (∀ a b : Score, Score.lt a b = false → Score.lt b a = false →
        a.hard_failures = b.hard_failures ∧ a.soft_failures = b.soft_failures ∧
          a.objective = b.objective) ∧
      (∀ a b : Score, a.hard_failures = b.hard_failures →
        a.soft_failures = b.soft_failures → a.objective = b.objective →
        Score.lt a b = false) ∧
      (∀ a b : Score, Score.eq a b = true →
        Score.lt a b = false ∧ Score.lt b a = false) := by
  have htrans : ∀ a b c : Score, Score.lt a b = true → Score.lt b c = true →
      Score.lt a c = true := by
    intro a b c hab hbc
    rw [scoreLt_iff] at hab hbc ⊢
    rcases hab with h1 | ⟨h1, hs⟩
    · rcases hbc with h2 | ⟨h2, _⟩
      · exact Or.inl (setLt_trans _ _ _ h1 h2)
      · rw [h2] at h1
        exact Or.inl h1
    · rcases hbc with h2 | ⟨h2, hs2⟩
      · rw [h1]
        exact Or.inl h2
      · refine Or.inr ⟨h1.trans h2, ?_⟩
        rcases hs with h3 | ⟨h3, ho⟩
        · rcases hs2 with h4 | ⟨h4, _⟩
          · exact Or.inl (setLt_trans _ _ _ h3 h4)
          · rw [h4] at h3
            exact Or.inl h3
        · rcases hs2 with h4 | ⟨h4, ho2⟩
          · rw [h3]
            exact Or.inl h4
          · exact Or.inr ⟨h3.trans h4, ho.trans ho2⟩
  have hnotlt : ∀ a b : Score, a.hard_failures = b.hard_failures →
      a.soft_failures = b.soft_failures → a.objective = b.objective →
      Score.lt a b = false := by
    intro a b h1 h2 h3
    cases hlt : Score.lt a b
    · rfl
    · rw [scoreLt_iff] at hlt
      rcases hlt with hc | ⟨_, hc | ⟨_, hc⟩⟩
      · rw [h1] at hc
        exact absurd hc (by simp [setLt_irrefl])
      · rw [h2] at hc
        exact absurd hc (by simp [setLt_irrefl])
      · rw [h3] at hc
        exact absurd hc (lt_irrefl _)
  have hasymm : ∀ a b : Score, Score.lt a b = true → Score.lt b a = false := by
    intro a b hab
    cases hba : Score.lt b a
    · rfl
    · have haa := htrans a b a hab hba
      rw [hnotlt a a rfl rfl rfl] at haa
      cases haa
  refine ⟨htrans, hasymm, ?_, hnotlt, ?_⟩
  · intro a b h1 h2
    have hhard : a.hard_failures = b.hard_failures := by
      cases hh1 : setLt a.hard_failures b.hard_failures
      · cases hh2 : setLt b.hard_failures a.hard_failures
        · exact setLt_eq_of_not _ _ hh1 hh2
        · have : Score.lt b a = true := (scoreLt_iff b a).mpr (Or.inl hh2)
          rw [h2] at this
          cases this
      · have : Score.lt a b = true := (scoreLt_iff a b).mpr (Or.inl hh1)
        rw [h1] at this
        cases this
    have hsoft : a.soft_failures = b.soft_failures := by
      cases hh1 : setLt a.soft_failures b.soft_failures
      · cases hh2 : setLt b.soft_failures a.soft_failures
        · exact setLt_eq_of_not _ _ hh1 hh2
        · have : Score.lt b a = true :=
            (scoreLt_iff b a).mpr (Or.inr ⟨hhard.symm, Or.inl hh2⟩)
          rw [h2] at this
          cases this
      · have : Score.lt a b = true :=
          (scoreLt_iff a b).mpr (Or.inr ⟨hhard, Or.inl hh1⟩)
        rw [h1] at this
        cases this
    refine ⟨hhard, hsoft, ?_⟩
    rcases lt_trichotomy a.objective b.objective with ho | ho | ho
    · have : Score.lt a b = true :=
        (scoreLt_iff a b).mpr (Or.inr ⟨hhard, Or.inr ⟨hsoft, ho⟩⟩)
      rw [h1] at this
      cases this
    · exact ho
    · have : Score.lt b a = true :=
        (scoreLt_iff b a).mpr (Or.inr ⟨hhard.symm, Or.inr ⟨hsoft.symm, ho⟩⟩)
      rw [h2] at this
      cases this
  · intro a b heq
    simp only [Score.eq, Bool.and_eq_true, decide_eq_true_eq] at heq
    obtain ⟨⟨⟨_, hh⟩, hs⟩, ho⟩ := heq
    exact ⟨hnotlt a b hh hs ho, hnotlt b a hh.symm hs.symm ho.symm⟩

/-- Witness for the amended C6 at the concrete scores
`a = ⟨∅, ∅, ∅, 0⟩`, `b = ⟨∅, {0}, ∅, 0⟩`, `c = ⟨∅, {0}, {1}, 0⟩`. -/
theorem score_lt_strict_weak_order_witness :
    Score.lt ⟨∅, ∅, ∅, 0⟩ ⟨∅, {0}, {1}, 0⟩ = true ∧
      Score.lt ⟨∅, {0}, ∅, 0⟩ ⟨∅, ∅, ∅, 0⟩ = false ∧
      ((⟨∅, ∅, ∅, 0⟩ : Score).hard_failures =
          (⟨∅, ∅, ∅, 0⟩ : Score).hard_failures ∧
        (⟨∅, ∅, ∅, 0⟩ : Score).soft_failures =
          (⟨∅, ∅, ∅, 0⟩ : Score).soft_failures ∧
        (⟨∅, ∅, ∅, 0⟩ : Score).objective = (⟨∅, ∅, ∅, 0⟩ : Score).objective) ∧
      Score.lt ⟨∅, ∅, ∅, 0⟩ ⟨∅, ∅, ∅, 0⟩ = false ∧
      (Score.lt ⟨∅, ∅, ∅, 0⟩ ⟨∅, ∅, ∅, 0⟩ = false ∧
        Score.lt ⟨∅, ∅, ∅, 0⟩ ⟨∅, ∅, ∅, 0⟩ = false) := by
  have hab : Score.lt ⟨∅, ∅, ∅, 0⟩ ⟨∅, {0}, ∅, 0⟩ = true := by
    simp [Score.lt, setLt, Finset.sort_empty, Finset.sort_singleton, lexLt]
  have hbc : Score.lt ⟨∅, {0}, ∅, 0⟩ ⟨∅, {0}, {1}, 0⟩ = true := by
    simp [Score.lt, setLt, Finset.sort_empty, Finset.sort_singleton, lexLt]
  have hlt1 : Score.lt ⟨∅, ∅, ∅, 0⟩ ⟨∅, ∅, ∅, 0⟩ = false := by
    simp [Score.lt, setLt, Finset.sort_empty, lexLt]
  refine ⟨score_lt_strict_weak_order.1 _ _ _ hab hbc,
    score_lt_strict_weak_order.2.1 _ _ hab,
    score_lt_strict_weak_order.2.2.1 _ _ hlt1 hlt1,
    score_lt_strict_weak_order.2.2.2.1 _ _ rfl rfl rfl,
    score_lt_strict_weak_order.2.2.2.2 _ _ (by decide)⟩

end PExplore
